import Mathlib

/-
  Verification of the biz_tracker pipeline (src/biz_tracker.py).

  The Python source is shallowly embedded: strings become `List Char`
  (Python code points), `re.sub(r'<[^>]+>', ' ', text)` becomes an explicit
  scanner, the regex searches `\b alias \b` and `\b[A-Z]{2,8}\b` become
  boundary-aware matchers over the embedded text, Python's stable
  `list.sort(key=..., reverse=True)` becomes a stable descending insertion
  sort, and the `defaultdict` aggregate becomes an insertion-ordered
  association list.  Word characters are modelled as ASCII alphanumerics
  plus underscore (the relevant fragment of Python's `\w`); `str.lower`
  is modelled on ASCII letters (all table entries are ASCII).
-/

namespace BizTracker

/-- A word character in the sense of the regex `\b` boundaries:
ASCII letter, digit, or underscore. -/
def wordCharB (c : Char) : Bool := c.isAlphanum || c == '_'

/-- Boundary test on an optional neighbouring character: `none` models the
edge of the string (always a boundary next to a word character). -/
def wordB : Option Char → Bool
  | none => false
  | some c => wordCharB c

/-- After the `<` of a candidate tag, `[^>]+>` consumes one or more
non-`>` characters and then a `>`.  This is the continuation after the
first consumed character: scan to the next `>`. -/
def skipToGt : List Char → Option (List Char)
  | [] => none
  | c :: cs => if c = '>' then some cs else skipToGt cs

/-- `findTagEnd rest` models matching the regex `<[^>]+>` at a position
whose `<` has just been consumed, with `rest` the characters after it:
there must be at least one non-`>` character before the closing `>`.
Returns the remainder after the `>` on success. -/
def findTagEnd : List Char → Option (List Char)
  | [] => none
  | c :: cs => if c = '>' then none else skipToGt cs

/-- `re.sub(r'<[^>]+>', ' ', text)`: leftmost, non-overlapping matches of
the tag pattern are each replaced by a single space.  Fuel-driven so that
the definition is structurally recursive (fuel = length is always enough,
since every step consumes at least one character). -/
def stripTagsGo : Nat → List Char → List Char
  | 0, l => l
  | _ + 1, [] => []
  | n + 1, c :: rest =>
    if c = '<' then
      match findTagEnd rest with
      | some rest2 => ' ' :: stripTagsGo n rest2
      | none => '<' :: stripTagsGo n rest
    else c :: stripTagsGo n rest

/-- `clean = re.sub(r'<[^>]+>', ' ', text)` from `extract_coins`. -/
def stripTags (l : List Char) : List Char := stripTagsGo l.length l

/-- Maximal word-character decomposition, auxiliary: returns the word-run
at the head of the list (possibly empty) and the remaining complete words. -/
def wordsAux : List Char → List Char × List (List Char)
  | [] => ([], [])
  | c :: cs =>
    let r := wordsAux cs
    if wordCharB c then (c :: r.1, r.2)
    else ([], if r.1 = [] then r.2 else r.1 :: r.2)

/-- The maximal runs of word characters of a character list, in order.
An occurrence of a word-character-only pattern with `\b` on both sides
is exactly an occurrence of that pattern as one of these runs. -/
def words (l : List Char) : List (List Char) :=
  if (wordsAux l).1 = [] then (wordsAux l).2 else (wordsAux l).1 :: (wordsAux l).2

/-- Literal-pattern test at the head of a list (character by character). -/
def leadsList : List Char → List Char → Bool
  | [], _ => true
  | _ :: _, [] => false
  | p :: ps, c :: cs => p == c && leadsList ps cs

/-- The regex `pat\b` matched exactly at the current position (`pat` a
word-character-only literal): `pat` starts here and the character after it,
if any, is not a word character. -/
def matchHere (pat l : List Char) : Bool :=
  leadsList pat l && !wordB (l.drop pat.length).head?

/-- Scanning engine for `re.search(r'\b' + pat + r'\b', l)` with `pat` a
non-empty word-character-only literal: `prev` is the character before the
current position (`none` at the start of the string).  Since `pat` starts
and ends with word characters, the leading `\b` holds iff `prev` is not a
word character, and the trailing `\b` is checked by `matchHere`. -/
def reSearchAux (pat : List Char) : Option Char → List Char → Bool
  | prev, [] => !wordB prev && matchHere pat []
  | prev, c :: cs => (!wordB prev && matchHere pat (c :: cs)) || reSearchAux pat (some c) cs

/-- `re.search(r'\b' + re.escape(alias) + r'\b', lower) is not None`
(aliases contain only lowercase letters, so `re.escape` is the identity). -/
def reSearch (pat l : List Char) : Bool := reSearchAux pat none l

/-- The COINS table of src/biz_tracker.py: symbol -> full display name,
in source order. -/
def COINS : List (String × String) := [
  ("BTC", "Bitcoin"), ("ETH", "Ethereum"), ("SOL", "Solana"),
  ("XRP", "Ripple"), ("BNB", "BNB"), ("ADA", "Cardano"),
  ("DOGE", "Dogecoin"), ("AVAX", "Avalanche"), ("DOT", "Polkadot"),
  ("MATIC", "Polygon"), ("LINK", "Chainlink"), ("UNI", "Uniswap"),
  ("ATOM", "Cosmos"), ("LTC", "Litecoin"), ("BCH", "Bitcoin Cash"),
  ("NEAR", "NEAR Protocol"), ("ICP", "Internet Computer"), ("VET", "VeChain"),
  ("FIL", "Filecoin"), ("HBAR", "Hedera"), ("ALGO", "Algorand"),
  ("XLM", "Stellar"), ("ETC", "Ethereum Classic"), ("SAND", "The Sandbox"),
  ("MANA", "Decentraland"), ("AXS", "Axie Infinity"), ("THETA", "Theta"),
  ("EOS", "EOS"), ("XTZ", "Tezos"), ("FTM", "Fantom"),
  ("CAKE", "PancakeSwap"), ("CRO", "Cronos"), ("GRT", "The Graph"),
  ("ZEC", "Zcash"), ("DASH", "Dash"), ("XMR", "Monero"),
  ("SHIB", "Shiba Inu"), ("PEPE", "Pepe"), ("WIF", "dogwifhat"),
  ("BONK", "Bonk"), ("FLOKI", "Floki"), ("TRUMP", "TRUMP"),
  ("TRX", "TRON"), ("SUI", "Sui"), ("SEI", "Sei"),
  ("INJ", "Injective"), ("ARB", "Arbitrum"), ("OP", "Optimism"),
  ("TON", "Toncoin"), ("APT", "Aptos"), ("STX", "Stacks"),
  ("AAVE", "Aave"), ("CRV", "Curve"), ("MKR", "Maker"),
  ("SNX", "Synthetix"), ("COMP", "Compound"), ("YFI", "Yearn Finance"),
  ("SUSHI", "SushiSwap"), ("WLD", "Worldcoin"), ("FET", "Fetch.ai"),
  ("RENDER", "Render"), ("TAO", "Bittensor"), ("OCEAN", "Ocean Protocol"),
  ("JUP", "Jupiter"), ("RAY", "Raydium"), ("ORCA", "Orca"),
  ("BOME", "Book of Meme"), ("POPCAT", "Popcat"), ("MEW", "Cat in a Dog World"),
  ("PENDLE", "Pendle"), ("LDO", "Lido DAO"), ("RPL", "Rocket Pool"),
  ("MOVE", "Movement"), ("EIGEN", "EigenLayer"), ("PYTH", "Pyth Network"),
  ("JTO", "Jito"), ("NOT", "Notcoin"), ("BLUR", "Blur"),
  ("IMX", "ImmutableX")]

/-- The ALIASES table of src/biz_tracker.py: lowercase alias -> canonical
symbol, in source order. -/
def ALIASES : List (String × String) := [
  ("bitcoin", "BTC"), ("satoshi", "BTC"), ("sats", "BTC"),
  ("ethereum", "ETH"), ("ether", "ETH"), ("vitalik", "ETH"),
  ("solana", "SOL"), ("ripple", "XRP"),
  ("dogecoin", "DOGE"), ("shiba", "SHIB"), ("shib", "SHIB"),
  ("pepe", "PEPE"), ("cardano", "ADA"),
  ("polygon", "MATIC"), ("avalanche", "AVAX"),
  ("chainlink", "LINK"), ("litecoin", "LTC"),
  ("monero", "XMR"), ("tron", "TRX"),
  ("toncoin", "TON"), ("trump", "TRUMP"),
  ("dogwifhat", "WIF"), ("bonk", "BONK"),
  ("floki", "FLOKI"), ("render", "RENDER"),
  ("bittensor", "TAO"), ("worldcoin", "WLD"),
  ("arbitrum", "ARB"), ("optimism", "OP"),
  ("injective", "INJ"), ("jupiter", "JUP")]

/-- The keys of the COINS table. -/
def coinKeys : List String := COINS.map (fun p => p.1)

/-- `word in COINS` (Python key-membership test). -/
def isCoinKey (s : String) : Bool := coinKeys.contains s

/-- `found.add(s)` on the Python set, modelled as an insertion-ordered
duplicate-free list. -/
def addFound (found : List String) (s : String) : List String :=
  if s ∈ found then found else found ++ [s]

/-- One iteration of the alias pass:
`if re.search(r'\b' + re.escape(alias) + r'\b', lower): found.add(sym)`. -/
def aliasStep (lower : List Char) (found : List String) (p : String × String) :
    List String :=
  if reSearch p.1.data lower then addFound found p.2 else found

/-- `re.findall(r'\b[A-Z]{2,8}\b', clean)`: with the greedy bounded
repetition and the two `\b` anchors, a match is exactly a maximal
word-character run that consists solely of uppercase ASCII letters and has
length between 2 and 8 (a longer uppercase run, or a run continuing with a
lowercase letter, digit or underscore, fails the trailing boundary at every
backtracking length). -/
def upperTokens (clean : List Char) : List (List Char) :=
  (words clean).filter
    (fun w => decide (2 ≤ w.length) && decide (w.length ≤ 8) && w.all Char.isUpper)

/-- One iteration of the symbol pass: `if word in COINS: found.add(word)`. -/
def symStep (found : List String) (w : List Char) : List String :=
  if isCoinKey (String.mk w) then addFound found (String.mk w) else found

/-- `extract_coins` from src/biz_tracker.py.  The Python function returns
`list(found)` whose order is unspecified (set iteration order); the model
returns the insertion-ordered duplicate-free list, and all claims about it
are order-independent. -/
def extract_coins (text : String) : List String :=
  if text = "" then []
  else
    let clean := stripTags text.data
    let lower := clean.map Char.toLower
    (upperTokens clean).foldl symStep (ALIASES.foldl (aliasStep lower) [])

/-- Spec-side comparator (written from the spec's words, for the
refinement claim about `extract_coins`): the alias pass as a set —
"lowercase the cleaned text; for each known alias, test for a
case-insensitive whole-word match (word boundaries on both sides); on
match, add the alias's canonical symbol to the result set".  A whole-word
occurrence of an all-word-character alias is an occurrence as one of the
maximal word-character runs. -/
def specAliasSymbols (text : String) : Finset String :=
  ((ALIASES.filter
      (fun p =>
        decide (p.1.data ∈ words ((stripTags text.data).map Char.toLower)))).map
    (fun p => p.2)).toFinset

/-- Spec-side comparator (written from the spec's words): the symbol pass
as a set — "extract every whole-word run of 2-8 consecutive uppercase
ASCII letters from the original-case cleaned text; for each such token, if
it exists as a key in the coin table, add it to the result set". -/
def specDirectSymbols (text : String) : Finset String :=
  (((words (stripTags text.data)).filter
      (fun w => decide (2 ≤ w.length) && decide (w.length ≤ 8)
        && w.all Char.isUpper && isCoinKey (String.mk w))).map String.mk).toFinset

/-- One forum thread record, as consumed by `analyze`: `no` the numeric id,
`sub`/`com` the optional subject and body (`none` models a missing key or a
JSON `null`), `replies` the reply count (`t.get("replies", 0)` collapsed). -/
structure Thread where
  no : Int
  sub : Option String
  com : Option String
  replies : Int
  deriving DecidableEq

/-- The per-symbol aggregate `{"count": ..., "threads": [...]}`. -/
structure CoinStat where
  count : Nat
  threadIds : List Int
  deriving DecidableEq

/-- One hot-thread record built by `analyze`. -/
structure Hot where
  no : Int
  sub : String
  coins : List String
  replies : Int
  deriving DecidableEq

/-- Python truthiness of `a or b` on an optional string: `a` unless it is
missing or empty. -/
def pyOr (a : Option String) (b : String) : String :=
  match a with
  | none => b
  | some s => if s = "" then b else s

/-- `" ".join([t.get("sub", "") or "", t.get("com", "") or ""])`. -/
def threadText (t : Thread) : String :=
  (t.sub.getD "") ++ " " ++ (t.com.getD "")

/-- The extraction result for one thread's combined text. -/
def threadCoins (t : Thread) : List String := extract_coins (threadText t)

/-- The hot-thread record appended when a thread's extraction result is
non-empty: `{"no": ..., "sub": t.get("sub") or (t.get("com") or "")[:80],
"coins": coins, "replies": t.get("replies", 0)}`. -/
def mkHot (t : Thread) (coins : List String) : Hot :=
  ⟨t.no, pyOr t.sub ((t.com.getD "").take 80), coins, t.replies⟩

/-- `coin_counts[sym]["count"] += 1; coin_counts[sym]["threads"].append(no)`
on the insertion-ordered association list modelling the `defaultdict`. -/
def bump (m : List (String × CoinStat)) (sym : String) (tid : Int) :
    List (String × CoinStat) :=
  match m with
  | [] => [(sym, ⟨1, [tid]⟩)]
  | (s, st) :: rest =>
    if s = sym then (s, ⟨st.count + 1, st.threadIds ++ [tid]⟩) :: rest
    else (s, st) :: bump rest sym tid

/-- Stable descending insertion step: a later element `x` is placed before
exactly those earlier elements whose key is strictly smaller, so ties keep
their original order. -/
def insertDesc {α : Type} (key : α → Int) (x : α) : List α → List α
  | [] => [x]
  | y :: ys => if key y < key x then x :: y :: ys else y :: insertDesc key x ys

/-- Python's stable `sort(key=..., reverse=True)`: a stable sort by the key
descending.  The stable sorted permutation is unique, so this insertion
sort agrees with Python's mergesort. -/
def sortDesc {α : Type} (key : α → Int) (l : List α) : List α :=
  l.foldl (fun acc y => insertDesc key y acc) []

/-- The body of the `for t in threads:` loop of `analyze`, acting on the
pair (coin_counts, hot_threads working list). -/
def analyzeStep (acc : List (String × CoinStat) × List Hot) (t : Thread) :
    List (String × CoinStat) × List Hot :=
  let coins := threadCoins t
  (coins.foldl (fun m sym => bump m sym t.no) acc.1,
   if coins = [] then acc.2 else acc.2 ++ [mkHot t coins])

/-- The hot-threads working list right before the final sort. -/
def hotRaw (threads : List Thread) : List Hot :=
  (threads.foldl analyzeStep ([], [])).2

/-- `analyze` from src/biz_tracker.py: returns `(coin_counts, hot_threads)`
with the hot list sorted by reply count descending (stable) and truncated
to 10. -/
def analyze (threads : List Thread) : List (String × CoinStat) × List Hot :=
  let r := threads.foldl analyzeStep ([], [])
  (r.1, (sortDesc (fun h : Hot => h.replies) r.2).take 10)

/-- The count stored for a symbol (0 when the symbol is absent). -/
def countOf (m : List (String × CoinStat)) (sym : String) : Nat :=
  ((m.lookup sym).map (fun st => st.count)).getD 0

/-- The thread-id list stored for a symbol ([] when absent). -/
def tidsOf (m : List (String × CoinStat)) (sym : String) : List Int :=
  ((m.lookup sym).map (fun st => st.threadIds)).getD []

/-- `total_mentions = sum(v["count"] for v in coin_counts.values())`. -/
def totalMentions (cc : List (String × CoinStat)) : Nat :=
  (cc.map (fun e => e.2.count)).sum

/-- Sort key used by `generate_html` for `sorted_coins`. -/
def entryKey (e : String × CoinStat) : Int := (e.2.count : Int)

/-- `sorted_coins = sorted(coin_counts.items(), key=..., reverse=True)`. -/
def sortedCoins (cc : List (String × CoinStat)) : List (String × CoinStat) :=
  sortDesc entryKey cc

/-- `max_count = sorted_coins[0][1]["count"] if sorted_coins else 1`. -/
def maxCount (cc : List (String × CoinStat)) : Nat :=
  match sortedCoins cc with
  | [] => 1
  | e :: _ => e.2.count

/-- `top10 = sorted_coins[:10]`. -/
def top10 (cc : List (String × CoinStat)) : List (String × CoinStat) :=
  (sortedCoins cc).take 10

/-- `hm_max = top10[0][1]["count"] if top10 else 1`. -/
def hmMax (cc : List (String × CoinStat)) : Nat :=
  match top10 cc with
  | [] => 1
  | e :: _ => e.2.count

/-- `pct = count / total_mentions * 100 if total_mentions else 0`, in exact
rational arithmetic. -/
def pctOf (total count : Nat) : ℚ :=
  if total = 0 then 0 else (count : ℚ) / (total : ℚ) * 100

/-- `bar_w = count / max_count * 100` (and `w = count / hm_max * 100`), in
exact rational arithmetic. -/
def barWOf (mx count : Nat) : ℚ := (count : ℚ) / (mx : ℚ) * 100

/-- Every divisor evaluated by `generate_html`, one per evaluated division:
the percentage divisor `total_mentions` (evaluated per leaderboard row, but
only when `total_mentions` is non-zero, because of the conditional
expression), the leaderboard bar divisor `max_count` (per row), and the
heat-map divisor `hm_max` (per top-10 row).  A run of `generate_html`
raises ZeroDivisionError iff 0 occurs in this list. -/
def evaluatedDivisors (cc : List (String × CoinStat)) : List Nat :=
  (if totalMentions cc = 0 then []
   else (sortedCoins cc).map (fun _ => totalMentions cc))
    ++ (sortedCoins cc).map (fun _ => maxCount cc)
    ++ (top10 cc).map (fun _ => hmMax cc)

/-- Outcome of the single `requests.get` in `fetch_catalog`: either the
flattened thread list, or a transport error (connection failure, timeout,
or the non-2xx `HTTPError` from `raise_for_status`, all subclasses of
`requests.exceptions.RequestException`) with its message. -/
inductive FetchOutcome where
  | success : List Thread → FetchOutcome
  | transportError : String → FetchOutcome

/-- Observable outcome of one run of `main`. -/
structure RunResult where
  fetchAttempts : Nat
  reportedError : Option String
  reportedNoCoins : Bool
  wroteFile : Option String
  raised : Bool
  deriving DecidableEq

/-- `main` from src/biz_tracker.py, as a function of the fetch outcome.
On success: analyze; if the mapping is empty, print the no-coins warning
and return; otherwise write `index.html`.  A `RequestException` is caught
by the first `except` clause, which prints the cause and does NOT re-raise,
so the process still exits with status 0. -/
def mainRun : FetchOutcome → RunResult
  | FetchOutcome.transportError msg => ⟨1, some msg, false, none, false⟩
  | FetchOutcome.success threads =>
    if (analyze threads).1 = [] then ⟨1, none, true, none, false⟩
    else ⟨1, none, false, some "index.html", false⟩

/-! ### Word decomposition and the boundary-search engine -/

theorem addFound_mem (found : List String) (x s : String) :
    s ∈ addFound found x ↔ s ∈ found ∨ s = x := by
  unfold addFound
  by_cases h : x ∈ found
  · rw [if_pos h]
    constructor
    · exact fun hs => Or.inl hs
    · rintro (hs | rfl)
      · exact hs
      · exact h
  · rw [if_neg h]
    simp [List.mem_append]

theorem addFound_nodup {found : List String} (h : found.Nodup) (x : String) :
    (addFound found x).Nodup := by
  unfold addFound
  by_cases hx : x ∈ found
  · rwa [if_pos hx]
  · rw [if_neg hx]
    simp [List.nodup_append, h, hx]

theorem takeWhile_append_all {p : Char → Bool} :
    ∀ (l t : List Char), (∀ c ∈ l, p c = true) →
      (l ++ t).takeWhile p = l ++ t.takeWhile p
  | [], t, _ => rfl
  | c :: cs, t, h => by
    have hc : p c = true := h c (by simp)
    simp only [List.cons_append, List.takeWhile_cons_of_pos hc,
      takeWhile_append_all cs t (fun d hd => h d (by simp [hd]))]

theorem dropWhile_head_false {p : Char → Bool} (l : List Char) {c : Char}
    (h : (l.dropWhile p).head? = some c) : p c = false := by
  have hh := List.head?_dropWhile_not p l
  rw [h] at hh
  exact hh

theorem leadsList_iff : ∀ (p l : List Char), leadsList p l = true ↔ ∃ t, l = p ++ t
  | [], l => by simp [leadsList]
  | q :: ps, [] => by simp [leadsList]
  | q :: ps, c :: cs => by
    simp only [leadsList, Bool.and_eq_true, beq_iff_eq]
    constructor
    · rintro ⟨rfl, h⟩
      obtain ⟨t, rfl⟩ := (leadsList_iff ps cs).1 h
      exact ⟨t, rfl⟩
    · rintro ⟨t, ht⟩
      injection ht with h1 h2
      exact ⟨h1.symm, (leadsList_iff ps cs).2 ⟨t, h2⟩⟩

theorem matchHere_iff {pat : List Char} (hne : pat ≠ [])
    (hw : ∀ c ∈ pat, wordCharB c = true) (l : List Char) :
    matchHere pat l = true ↔ pat = l.takeWhile wordCharB := by
  unfold matchHere
  simp only [Bool.and_eq_true, Bool.not_eq_true']
  constructor
  · rintro ⟨hpre, hafter⟩
    obtain ⟨t, rfl⟩ := (leadsList_iff pat _).1 hpre
    rw [List.drop_left] at hafter
    rw [takeWhile_append_all pat t hw]
    cases t with
    | nil => simp
    | cons d ds =>
      simp only [List.head?_cons, wordB] at hafter
      simp [List.takeWhile_cons, hafter]
  · intro h
    have hcat : pat ++ l.dropWhile wordCharB = l := by
      rw [h]
      exact List.takeWhile_append_dropWhile wordCharB l
    have hdrop : l.drop pat.length = l.dropWhile wordCharB := by
      conv_lhs => rw [← hcat]
      rw [List.drop_left]
    refine ⟨(leadsList_iff pat l).2 ⟨l.dropWhile wordCharB, hcat.symm⟩, ?_⟩
    rw [hdrop]
    cases hh : (l.dropWhile wordCharB).head? with
    | none => rfl
    | some d => simpa [wordB] using dropWhile_head_false l hh

theorem wordsAux_cons (c : Char) (cs : List Char) :
    wordsAux (c :: cs) =
      if wordCharB c = true then (c :: (wordsAux cs).1, (wordsAux cs).2)
      else
        ([], if (wordsAux cs).1 = [] then (wordsAux cs).2
             else (wordsAux cs).1 :: (wordsAux cs).2) := rfl

theorem words_eq (l : List Char) :
    words l =
      if (wordsAux l).1 = [] then (wordsAux l).2
      else (wordsAux l).1 :: (wordsAux l).2 := rfl

theorem wordsAux_fst : ∀ l : List Char, (wordsAux l).1 = l.takeWhile wordCharB
  | [] => rfl
  | c :: cs => by
    rw [wordsAux_cons, List.takeWhile_cons]
    cases hc : wordCharB c with
    | true => simp [hc, wordsAux_fst cs]
    | false => simp [hc]

theorem wordsAux_snd : ∀ l : List Char, (wordsAux l).2 = words (l.dropWhile wordCharB)
  | [] => rfl
  | c :: cs => by
    rw [wordsAux_cons, List.dropWhile_cons]
    cases hc : wordCharB c with
    | true => simp [hc, wordsAux_snd cs]
    | false =>
      simp only [hc, Bool.false_eq_true, if_false]
      rw [words_eq (c :: cs), wordsAux_cons]
      simp only [hc, Bool.false_eq_true, if_false]
      rfl

theorem words_cons (c : Char) (cs : List Char) :
    words (c :: cs) =
      if wordCharB c = true then
        (c :: cs.takeWhile wordCharB) :: words (cs.dropWhile wordCharB)
      else words cs := by
  rw [words_eq, wordsAux_cons]
  cases hc : wordCharB c with
  | true => simp [hc, wordsAux_fst cs, wordsAux_snd cs]
  | false =>
    simp only [hc, Bool.false_eq_true, if_false]
    rw [words_eq cs]
    rfl

theorem reSearchAux_iff {pat : List Char} (hne : pat ≠ [])
    (hw : ∀ c ∈ pat, wordCharB c = true) :
    ∀ (l : List Char) (prev : Option Char),
      reSearchAux pat prev l = true ↔
        pat ∈ (if wordB prev = true then words (l.dropWhile wordCharB) else words l)
  | [], prev => by
    have hm : matchHere pat [] = false := by
      cases pat with
      | nil => exact absurd rfl hne
      | cons p ps => rfl
    cases hb : wordB prev <;>
      simp [reSearchAux, hm, hb, words, wordsAux]
  | c :: cs, prev => by
    have ih := reSearchAux_iff hne hw cs (some c)
    cases hb : wordB prev with
    | true =>
      simp only [if_pos rfl] at ih ⊢
      simp only [reSearchAux, hb, Bool.not_true, Bool.false_and, Bool.false_or]
      cases hc : wordCharB c with
      | true =>
        rw [List.dropWhile_cons_of_pos hc]
        rw [ih]
        simp [wordB, hc]
      | false =>
        rw [List.dropWhile_cons_of_neg (by simp [hc]), words_cons]
        simp only [hc, Bool.false_eq_true, if_false]
        rw [ih]
        simp [wordB, hc]
    | false =>
      simp only [reSearchAux, hb, Bool.not_false, Bool.true_and, Bool.or_eq_true]
      simp only [Bool.false_eq_true, if_false]
      rw [matchHere_iff hne hw (c :: cs), ih]
      cases hc : wordCharB c with
      | true =>
        rw [words_cons]
        simp only [hc, if_pos rfl]
        simp [wordB, hc, List.takeWhile_cons_of_pos hc, List.mem_cons]
      | false =>
        rw [words_cons]
        simp only [hc, Bool.false_eq_true, if_false]
        rw [List.takeWhile_cons_of_neg (by simp [hc])]
        simp [wordB, hc, hne]

theorem reSearch_iff {pat : List Char} (hne : pat ≠ [])
    (hw : ∀ c ∈ pat, wordCharB c = true) (l : List Char) :
    reSearch pat l = true ↔ pat ∈ words l := by
  have h := reSearchAux_iff hne hw l none
  simpa [reSearch, wordB] using h

/-! ### Extraction: membership characterisation -/

theorem foldl_aliasStep_mem (lower : List Char) (s : String) :
    ∀ (L : List (String × String)) (found : List String),
      s ∈ L.foldl (aliasStep lower) found ↔
        s ∈ found ∨ ∃ p, p ∈ L ∧ p.2 = s ∧ reSearch p.1.data lower = true
  | [], found => by simp
  | q :: L, found => by
    rw [List.foldl_cons, foldl_aliasStep_mem lower s L]
    unfold aliasStep
    by_cases hq : reSearch q.1.data lower = true
    · rw [if_pos hq, addFound_mem]
      constructor
      · rintro ((h | rfl) | ⟨p, hp, hps, hr⟩)
        · exact Or.inl h
        · exact Or.inr ⟨q, List.mem_cons_self q L, rfl, hq⟩
        · exact Or.inr ⟨p, List.mem_cons_of_mem q hp, hps, hr⟩
      · rintro (h | ⟨p, hp, hps, hr⟩)
        · exact Or.inl (Or.inl h)
        · rcases List.mem_cons.1 hp with rfl | hp2
          · exact Or.inl (Or.inr hps.symm)
          · exact Or.inr ⟨p, hp2, hps, hr⟩
    · rw [if_neg hq]
      constructor
      · rintro (h | ⟨p, hp, hps, hr⟩)
        · exact Or.inl h
        · exact Or.inr ⟨p, List.mem_cons_of_mem q hp, hps, hr⟩
      · rintro (h | ⟨p, hp, hps, hr⟩)
        · exact Or.inl h
        · rcases List.mem_cons.1 hp with rfl | hp2
          · exact absurd hr hq
          · exact Or.inr ⟨p, hp2, hps, hr⟩

theorem foldl_symStep_mem (s : String) :
    ∀ (ws : List (List Char)) (found : List String),
      s ∈ ws.foldl symStep found ↔
        s ∈ found ∨ ∃ w, w ∈ ws ∧ isCoinKey (String.mk w) = true ∧ s = String.mk w
  | [], found => by simp
  | w :: ws, found => by
    rw [List.foldl_cons, foldl_symStep_mem s ws]
    unfold symStep
    by_cases hw : isCoinKey (String.mk w) = true
    · rw [if_pos hw, addFound_mem]
      constructor
      · rintro ((h | rfl) | ⟨v, hv, hvk, hvs⟩)
        · exact Or.inl h
        · exact Or.inr ⟨w, List.mem_cons_self w ws, hw, rfl⟩
        · exact Or.inr ⟨v, List.mem_cons_of_mem w hv, hvk, hvs⟩
      · rintro (h | ⟨v, hv, hvk, hvs⟩)
        · exact Or.inl (Or.inl h)
        · rcases List.mem_cons.1 hv with rfl | hv2
          · exact Or.inl (Or.inr hvs)
          · exact Or.inr ⟨v, hv2, hvk, hvs⟩
    · rw [if_neg hw]
      constructor
      · rintro (h | ⟨v, hv, hvk, hvs⟩)
        · exact Or.inl h
        · exact Or.inr ⟨v, List.mem_cons_of_mem w hv, hvk, hvs⟩
      · rintro (h | ⟨v, hv, hvk, hvs⟩)
        · exact Or.inl h
        · rcases List.mem_cons.1 hv with rfl | hv2
          · exact absurd hvk hw
          · exact Or.inr ⟨v, hv2, hvk, hvs⟩

theorem foldl_aliasStep_nodup (lower : List Char) :
    ∀ (L : List (String × String)) {found : List String},
      found.Nodup → (L.foldl (aliasStep lower) found).Nodup
  | [], _, h => h
  | q :: L, found, h => by
    rw [List.foldl_cons]
    apply foldl_aliasStep_nodup lower L
    unfold aliasStep
    by_cases hq : reSearch q.1.data lower = true
    · rw [if_pos hq]; exact addFound_nodup h q.2
    · rwa [if_neg hq]

theorem foldl_symStep_nodup :
    ∀ (ws : List (List Char)) {found : List String},
      found.Nodup → (ws.foldl symStep found).Nodup
  | [], _, h => h
  | w :: ws, found, h => by
    rw [List.foldl_cons]
    apply foldl_symStep_nodup ws
    unfold symStep
    by_cases hw : isCoinKey (String.mk w) = true
    · rw [if_pos hw]; exact addFound_nodup h (String.mk w)
    · rwa [if_neg hw]

/-- Central membership characterisation of `extract_coins` on a non-empty
input: a symbol is returned iff the alias pass finds it (regex search over
the lowercased cleaned text) or the symbol pass finds it (a 2-8 letter
uppercase whole word that is a coin key). -/
theorem extract_coins_mem (text s : String) (h : text ≠ "") :
    s ∈ extract_coins text ↔
      (∃ p, p ∈ ALIASES ∧ p.2 = s ∧
        reSearch p.1.data ((stripTags text.data).map Char.toLower) = true)
      ∨ (∃ w, w ∈ upperTokens (stripTags text.data) ∧
          isCoinKey (String.mk w) = true ∧ s = String.mk w) := by
  unfold extract_coins
  rw [if_neg h]
  rw [foldl_symStep_mem, foldl_aliasStep_mem]
  simp

theorem extract_coins_nodup (text : String) : (extract_coins text).Nodup := by
  unfold extract_coins
  by_cases h : text = ""
  · rw [if_pos h]; exact List.nodup_nil
  · rw [if_neg h]
    exact foldl_symStep_nodup _ (foldl_aliasStep_nodup _ _ List.nodup_nil)

/-- Every alias is a non-empty all-word-character string (so the `\b`
boundary analysis applies to it). -/
theorem aliases_wordish :
    ∀ p ∈ ALIASES, p.1.data ≠ [] ∧ ∀ c ∈ p.1.data, wordCharB c = true := by
  decide

/-- Every alias value is a key of the COINS table. -/
theorem aliases_values_coin : ∀ p ∈ ALIASES, isCoinKey p.2 = true := by
  decide

/-- Extraction only ever returns coin-table keys. -/
theorem extract_coins_isCoinKey (text : String) :
    ∀ s ∈ extract_coins text, isCoinKey s = true := by
  intro s hs
  by_cases h : text = ""
  · rw [h] at hs
    simp [extract_coins] at hs
  · rcases (extract_coins_mem text s h).1 hs with ⟨p, hp, hps, _⟩ | ⟨w, _, hwk, rfl⟩
    · exact hps ▸ aliases_values_coin p hp
    · exact hwk

/-! ### The stable descending sort -/

section SortDesc

variable {α : Type} (key : α → Int)

theorem insertDesc_perm (x : α) : ∀ l : List α, List.Perm (insertDesc key x l) (x :: l)
  | [] => List.Perm.refl _
  | y :: ys => by
    unfold insertDesc
    by_cases h : key y < key x
    · rw [if_pos h]
    · rw [if_neg h]
      exact ((insertDesc_perm x ys).cons y).trans (List.Perm.swap x y ys)

theorem foldl_insertDesc_perm :
    ∀ (l acc : List α), List.Perm (l.foldl (fun a y => insertDesc key y a) acc) (acc ++ l)
  | [], acc => by simp
  | x :: xs, acc => by
    rw [List.foldl_cons]
    have h1 := foldl_insertDesc_perm xs (insertDesc key x acc)
    have h2 : List.Perm (insertDesc key x acc ++ xs) ((x :: acc) ++ xs) :=
      (insertDesc_perm key x acc).append_right xs
    have h3 : List.Perm ((x :: acc) ++ xs) (acc ++ x :: xs) := by
      simpa using List.perm_middle.symm
    exact (h1.trans h2).trans h3

theorem sortDesc_perm (l : List α) : List.Perm (sortDesc key l) l := by
  have h := foldl_insertDesc_perm key l []
  simpa [sortDesc] using h

theorem insertDesc_pairwise (x : α) :
    ∀ (l : List α), l.Pairwise (fun a b => key b ≤ key a) →
      (insertDesc key x l).Pairwise (fun a b => key b ≤ key a)
  | [], _ => by simp [insertDesc]
  | y :: ys, h => by
    rw [List.pairwise_cons] at h
    obtain ⟨hy, hys⟩ := h
    unfold insertDesc
    by_cases hlt : key y < key x
    · rw [if_pos hlt]
      refine List.Pairwise.cons ?_ (List.Pairwise.cons hy hys)
      intro z hz
      rcases List.mem_cons.1 hz with rfl | hz2
      · exact le_of_lt hlt
      · exact le_trans (hy z hz2) (le_of_lt hlt)
    · rw [if_neg hlt]
      refine List.Pairwise.cons ?_ (insertDesc_pairwise x ys hys)
      intro z hz
      have hz3 := (insertDesc_perm key x ys).mem_iff.1 hz
      rcases List.mem_cons.1 hz3 with rfl | hz4
      · exact le_of_not_lt hlt
      · exact hy z hz4

theorem foldl_insertDesc_pairwise :
    ∀ (l acc : List α), acc.Pairwise (fun a b => key b ≤ key a) →
      (l.foldl (fun a y => insertDesc key y a) acc).Pairwise (fun a b => key b ≤ key a)
  | [], _, h => h
  | x :: xs, acc, h => by
    rw [List.foldl_cons]
    exact foldl_insertDesc_pairwise xs _ (insertDesc_pairwise key x acc h)

theorem sortDesc_pairwise (l : List α) :
    (sortDesc key l).Pairwise (fun a b => key b ≤ key a) :=
  foldl_insertDesc_pairwise key l [] List.Pairwise.nil

theorem insertDesc_filter (k : Int) (x : α) :
    ∀ (l : List α), l.Pairwise (fun a b => key b ≤ key a) →
      (insertDesc key x l).filter (fun a => key a == k) =
        if key x = k then l.filter (fun a => key a == k) ++ [x]
        else l.filter (fun a => key a == k)
  | [], _ => by
    by_cases hx : key x = k <;> simp [insertDesc, List.filter_cons, hx]
  | y :: ys, h => by
    rw [List.pairwise_cons] at h
    obtain ⟨hy, hys⟩ := h
    unfold insertDesc
    by_cases hlt : key y < key x
    · rw [if_pos hlt]
      by_cases hx : key x = k
      · have hnil : (y :: ys).filter (fun a => key a == k) = [] := by
          rw [List.filter_eq_nil_iff]
          intro a ha
          rcases List.mem_cons.1 ha with rfl | ha2
          · simp only [beq_iff_eq]
            omega
          · have h2 := hy a ha2
            simp only [beq_iff_eq]
            omega
        simp [List.filter_cons, hx, hnil]
      · simp [List.filter_cons, hx]
    · rw [if_neg hlt]
      rw [List.filter_cons, List.filter_cons,
        insertDesc_filter k x ys hys]
      by_cases hx : key x = k
      · by_cases hyk : key y = k <;>
          simp [hx, hyk]
      · by_cases hyk : key y = k <;>
          simp [hx, hyk]

theorem foldl_insertDesc_filter (k : Int) :
    ∀ (l acc : List α), acc.Pairwise (fun a b => key b ≤ key a) →
      (l.foldl (fun a y => insertDesc key y a) acc).filter (fun a => key a == k) =
        acc.filter (fun a => key a == k) ++ l.filter (fun a => key a == k)
  | [], _, _ => by simp
  | x :: xs, acc, h => by
    rw [List.foldl_cons]
    rw [foldl_insertDesc_filter k xs _ (insertDesc_pairwise key x acc h)]
    rw [insertDesc_filter key k x acc h]
    by_cases hx : key x = k
    · simp [List.filter_cons, hx]
    · simp [List.filter_cons, hx]

theorem sortDesc_filter (k : Int) (l : List α) :
    (sortDesc key l).filter (fun a => key a == k) = l.filter (fun a => key a == k) := by
  have h := foldl_insertDesc_filter key k l [] List.Pairwise.nil
  simpa [sortDesc] using h

theorem sortDesc_head_max (l : List α) (e : α) (rest : List α)
    (h : sortDesc key l = e :: rest) : ∀ x ∈ l, key x ≤ key e := by
  intro x hx
  have hmem : x ∈ e :: rest := by
    rw [← h]
    exact (sortDesc_perm key l).mem_iff.2 hx
  have hp := sortDesc_pairwise key l
  rw [h, List.pairwise_cons] at hp
  rcases List.mem_cons.1 hmem with rfl | h2
  · exact le_refl _
  · exact hp.1 x h2

end SortDesc

/-! ### Aggregation invariants -/

theorem lookup_bump (sym : String) (tid : Int) :
    ∀ (m : List (String × CoinStat)) (s : String),
      (bump m sym tid).lookup s =
        if s = sym then
          some (match m.lookup s with
                | none => (⟨1, [tid]⟩ : CoinStat)
                | some st => ⟨st.count + 1, st.threadIds ++ [tid]⟩)
        else m.lookup s
  | [], s => by
    by_cases h : s = sym
    · rw [if_pos h]
      simp [bump, List.lookup, h]
    · rw [if_neg h]
      have hb : (s == sym) = false := by simp [h]
      simp [bump, List.lookup, hb]
  | (a, st) :: rest, s => by
    by_cases ha : a = sym
    · have hbump : bump ((a, st) :: rest) sym tid =
          (a, ⟨st.count + 1, st.threadIds ++ [tid]⟩) :: rest := by
        simp [bump, ha]
      rw [hbump]
      by_cases hs : s = a
      · have hb : (s == a) = true := by simp [hs]
        rw [if_pos (hs.trans ha)]
        simp [List.lookup, hb]
      · have hb : (s == a) = false := by simp [hs]
        have hss : ¬s = sym := fun h2 => hs (h2.trans ha.symm)
        rw [if_neg hss]
        simp [List.lookup, hb]
    · have hbump : bump ((a, st) :: rest) sym tid = (a, st) :: bump rest sym tid := by
        simp [bump, ha]
      rw [hbump]
      by_cases hs : s = a
      · have hb : (s == a) = true := by simp [hs]
        have hss : ¬s = sym := fun h2 => ha (hs.symm.trans h2)
        rw [if_neg hss]
        simp [List.lookup, hb]
      · have hb : (s == a) = false := by simp [hs]
        simp only [List.lookup, hb]
        rw [lookup_bump sym tid rest s]

theorem countOf_bump (sym : String) (tid : Int) (m : List (String × CoinStat))
    (s : String) :
    countOf (bump m sym tid) s = countOf m s + (if s = sym then 1 else 0) := by
  unfold countOf
  rw [lookup_bump]
  by_cases h : s = sym
  · rw [if_pos h, if_pos h]
    cases hm : m.lookup s <;> simp
  · rw [if_neg h, if_neg h]
    simp

theorem tidsOf_bump (sym : String) (tid : Int) (m : List (String × CoinStat))
    (s : String) :
    tidsOf (bump m sym tid) s = tidsOf m s ++ (if s = sym then [tid] else []) := by
  unfold tidsOf
  rw [lookup_bump]
  by_cases h : s = sym
  · rw [if_pos h, if_pos h]
    cases hm : m.lookup s <;> simp
  · rw [if_neg h, if_neg h]
    simp

theorem countOf_bumpList (tid : Int) :
    ∀ (cs : List String) (m : List (String × CoinStat)) (s : String), cs.Nodup →
      countOf (cs.foldl (fun m2 sym => bump m2 sym tid) m) s =
        countOf m s + (if s ∈ cs then 1 else 0)
  | [], m, s, _ => by simp
  | c :: cs2, m, s, hnd => by
    rw [List.foldl_cons]
    have hnd2 := List.nodup_cons.1 hnd
    rw [countOf_bumpList tid cs2 _ s hnd2.2]
    rw [countOf_bump]
    by_cases hsc : s = c
    · subst hsc
      have hns : s ∉ cs2 := hnd2.1
      simp [hns]
    · by_cases h2 : s ∈ cs2 <;> simp [hsc, h2]

theorem tidsOf_bumpList (tid : Int) :
    ∀ (cs : List String) (m : List (String × CoinStat)) (s : String), cs.Nodup →
      tidsOf (cs.foldl (fun m2 sym => bump m2 sym tid) m) s =
        tidsOf m s ++ (if s ∈ cs then [tid] else [])
  | [], m, s, _ => by simp
  | c :: cs2, m, s, hnd => by
    rw [List.foldl_cons]
    have hnd2 := List.nodup_cons.1 hnd
    rw [tidsOf_bumpList tid cs2 _ s hnd2.2]
    rw [tidsOf_bump]
    by_cases hsc : s = c
    · subst hsc
      have hns : s ∉ cs2 := hnd2.1
      simp [hns]
    · by_cases h2 : s ∈ cs2 <;> simp [hsc, h2]

theorem analyze_loop_count (s : String) :
    ∀ (threads : List Thread) (m : List (String × CoinStat)) (hl : List Hot),
      countOf (threads.foldl analyzeStep (m, hl)).1 s =
        countOf m s + (threads.filter (fun t => decide (s ∈ threadCoins t))).length
  | [], m, hl => by simp
  | t :: ts, m, hl => by
    rw [List.foldl_cons]
    rw [analyze_loop_count s ts (analyzeStep (m, hl) t).1 (analyzeStep (m, hl) t).2]
    have hfst : (analyzeStep (m, hl) t).1 =
        (threadCoins t).foldl (fun m2 sym => bump m2 sym t.no) m := rfl
    rw [hfst, countOf_bumpList t.no (threadCoins t) m s (extract_coins_nodup _)]
    rw [List.filter_cons]
    by_cases hm : s ∈ threadCoins t <;> simp [hm] <;> omega

theorem analyze_loop_tids (s : String) :
    ∀ (threads : List Thread) (m : List (String × CoinStat)) (hl : List Hot),
      tidsOf (threads.foldl analyzeStep (m, hl)).1 s =
        tidsOf m s ++
          ((threads.filter (fun t => decide (s ∈ threadCoins t))).map (fun t => t.no))
  | [], m, hl => by simp
  | t :: ts, m, hl => by
    rw [List.foldl_cons]
    rw [analyze_loop_tids s ts (analyzeStep (m, hl) t).1 (analyzeStep (m, hl) t).2]
    have hfst : (analyzeStep (m, hl) t).1 =
        (threadCoins t).foldl (fun m2 sym => bump m2 sym t.no) m := rfl
    rw [hfst, tidsOf_bumpList t.no (threadCoins t) m s (extract_coins_nodup _)]
    rw [List.filter_cons]
    by_cases hm : s ∈ threadCoins t <;> simp [hm]

theorem analyze_loop_hot :
    ∀ (threads : List Thread) (m : List (String × CoinStat)) (hl : List Hot),
      (threads.foldl analyzeStep (m, hl)).2 =
        hl ++ (threads.filter (fun t => decide (threadCoins t ≠ []))).map
          (fun t => mkHot t (threadCoins t))
  | [], m, hl => by simp
  | t :: ts, m, hl => by
    rw [List.foldl_cons]
    rw [analyze_loop_hot ts (analyzeStep (m, hl) t).1 (analyzeStep (m, hl) t).2]
    have hsnd : (analyzeStep (m, hl) t).2 =
        if threadCoins t = [] then hl else hl ++ [mkHot t (threadCoins t)] := rfl
    rw [hsnd, List.filter_cons]
    by_cases hm : threadCoins t = [] <;> simp [hm]

/-! ### Renderer arithmetic -/

theorem sum_pct_map (T : Nat) (hT : T ≠ 0) :
    ∀ L : List (String × CoinStat),
      ((L.map (fun e => pctOf T e.2.count)).sum : ℚ) =
        ((L.map (fun e => (e.2.count : ℚ))).sum) / (T : ℚ) * 100
  | [] => by simp
  | e :: L => by
    rw [List.map_cons, List.sum_cons, sum_pct_map T hT L, List.map_cons,
      List.sum_cons]
    unfold pctOf
    rw [if_neg hT, add_div, add_mul]

theorem totalMentions_cast (cc : List (String × CoinStat)) :
    ((totalMentions cc : Nat) : ℚ) = (cc.map (fun e => (e.2.count : ℚ))).sum := by
  unfold totalMentions
  rw [Nat.cast_list_sum, List.map_map]
  rfl

theorem sortedCoins_sum_pct (cc : List (String × CoinStat))
    (hT : totalMentions cc ≠ 0) :
    ((sortedCoins cc).map (fun e => pctOf (totalMentions cc) e.2.count)).sum = 100 := by
  have hperm : List.Perm (sortedCoins cc) cc := sortDesc_perm entryKey cc
  have h1 := (hperm.map (fun e => pctOf (totalMentions cc) e.2.count)).sum_eq
  rw [h1, sum_pct_map _ hT, ← totalMentions_cast]
  have hT2 : ((totalMentions cc : Nat) : ℚ) ≠ 0 := by
    exact_mod_cast hT
  rw [div_self hT2, one_mul]

theorem sortedCoins_nil_iff (cc : List (String × CoinStat)) :
    sortedCoins cc = [] ↔ cc = [] := by
  have hlen := (sortDesc_perm entryKey cc).length_eq
  constructor
  · intro h
    have h2 : sortDesc entryKey cc = [] := h
    rw [h2] at hlen
    exact List.length_eq_zero.1 hlen.symm
  · rintro rfl
    rfl

theorem maxCount_is_max (cc : List (String × CoinStat)) (hne : cc ≠ []) :
    (∀ e ∈ cc, e.2.count ≤ maxCount cc) ∧ ∃ e ∈ cc, maxCount cc = e.2.count := by
  have hsne : sortedCoins cc ≠ [] := fun h => hne ((sortedCoins_nil_iff cc).1 h)
  cases hs : sortedCoins cc with
  | nil => exact absurd hs hsne
  | cons e rest =>
    have hmax : maxCount cc = e.2.count := by
      simp [maxCount, hs]
    constructor
    · intro x hx
      have h2 := sortDesc_head_max entryKey cc e rest hs x hx
      have h3 : (x.2.count : Int) ≤ (e.2.count : Int) := h2
      rw [hmax]
      exact_mod_cast h3
    · refine ⟨e, ?_, hmax⟩
      have h3 : e ∈ sortedCoins cc := by
        rw [hs]
        exact List.mem_cons_self e rest
      exact (sortDesc_perm entryKey cc).mem_iff.1 h3

theorem hmMax_eq_maxCount (cc : List (String × CoinStat)) :
    hmMax cc = maxCount cc := by
  unfold hmMax top10 maxCount
  cases hs : sortedCoins cc with
  | nil => simp
  | cons e rest => simp

theorem maxCount_pos (cc : List (String × CoinStat)) (hne : cc ≠ [])
    (hp : ∀ e ∈ cc, 0 < e.2.count) : 0 < maxCount cc := by
  obtain ⟨_, f, hf, hfe⟩ := maxCount_is_max cc hne
  rw [hfe]
  exact hp f hf

theorem no_zero_divisor_of_pos (cc : List (String × CoinStat))
    (hp : ∀ e ∈ cc, 0 < e.2.count) : (0 : Nat) ∉ evaluatedDivisors cc := by
  intro h0
  unfold evaluatedDivisors at h0
  have hccpos : ∀ e, e ∈ sortedCoins cc → cc ≠ [] := by
    intro e hmem hnil
    rw [hnil] at hmem
    simp [sortedCoins, sortDesc] at hmem
  rcases List.mem_append.1 h0 with h12 | h3
  · rcases List.mem_append.1 h12 with h1 | h2
    · by_cases hT : totalMentions cc = 0
      · rw [if_pos hT] at h1
        simp at h1
      · rw [if_neg hT] at h1
        rcases List.mem_map.1 h1 with ⟨e, _, he⟩
        exact hT he
    · rcases List.mem_map.1 h2 with ⟨e, hmem, he⟩
      have hne := hccpos e hmem
      have hpos := maxCount_pos cc hne hp
      omega
  · rcases List.mem_map.1 h3 with ⟨e, hmem, he⟩
    rw [hmMax_eq_maxCount] at he
    have hmem2 : e ∈ (sortedCoins cc).take 10 := hmem
    have hne := hccpos e (List.mem_of_mem_take hmem2)
    have hpos := maxCount_pos cc hne hp
    omega

/-! ### Key invariants for the aggregate -/

theorem bump_keys (sym : String) (tid : Int) :
    ∀ (m : List (String × CoinStat)) (q : String × CoinStat),
      q ∈ bump m sym tid → q.1 = sym ∨ q ∈ m
  | [], q, hq => by
    have hq2 : q = (sym, ⟨1, [tid]⟩) := by simpa [bump] using hq
    exact Or.inl (by rw [hq2])
  | (a, st) :: rest, q, hq => by
    by_cases ha : a = sym
    · have hbump : bump ((a, st) :: rest) sym tid =
          (a, ⟨st.count + 1, st.threadIds ++ [tid]⟩) :: rest := by
        simp [bump, ha]
      rw [hbump] at hq
      rcases List.mem_cons.1 hq with rfl | h2
      · exact Or.inl ha
      · exact Or.inr (List.mem_cons_of_mem _ h2)
    · have hbump : bump ((a, st) :: rest) sym tid = (a, st) :: bump rest sym tid := by
        simp [bump, ha]
      rw [hbump] at hq
      rcases List.mem_cons.1 hq with rfl | h2
      · exact Or.inr (List.mem_cons_self _ _)
      · rcases bump_keys sym tid rest q h2 with h3 | h4
        · exact Or.inl h3
        · exact Or.inr (List.mem_cons_of_mem _ h4)

theorem bumpList_keys (tid : Int) :
    ∀ (cs : List String) (m : List (String × CoinStat)) (q : String × CoinStat),
      q ∈ cs.foldl (fun m2 sym => bump m2 sym tid) m → q.1 ∈ cs ∨ q ∈ m
  | [], _, _, hq => Or.inr hq
  | c :: cs2, m, q, hq => by
    rw [List.foldl_cons] at hq
    rcases bumpList_keys tid cs2 (bump m c tid) q hq with h1 | h2
    · exact Or.inl (List.mem_cons_of_mem _ h1)
    · rcases bump_keys c tid m q h2 with h3 | h4
      · exact Or.inl (h3 ▸ List.mem_cons_self _ _)
      · exact Or.inr h4

theorem analyze_keys_coin :
    ∀ (threads : List Thread) (m : List (String × CoinStat)) (hl : List Hot),
      (∀ q ∈ m, isCoinKey q.1 = true) →
      ∀ q ∈ (threads.foldl analyzeStep (m, hl)).1, isCoinKey q.1 = true
  | [], _, _, hm, q, hq => hm q hq
  | t :: ts, m, hl, hm, q, hq => by
    rw [List.foldl_cons] at hq
    refine analyze_keys_coin ts (analyzeStep (m, hl) t).1 (analyzeStep (m, hl) t).2
      ?_ q hq
    intro r hr
    have hfst : (analyzeStep (m, hl) t).1 =
        (threadCoins t).foldl (fun m2 sym => bump m2 sym t.no) m := rfl
    rw [hfst] at hr
    rcases bumpList_keys t.no (threadCoins t) m r hr with h1 | h2
    · exact extract_coins_isCoinKey _ r.1 h1
    · exact hm r h2

theorem hot_coins_coin (threads : List Thread) :
    ∀ h ∈ (analyze threads).2, ∀ s ∈ h.coins, isCoinKey s = true := by
  intro h hh s hs
  have h2 : (analyze threads).2 =
      (sortDesc (fun x : Hot => x.replies) (hotRaw threads)).take 10 := rfl
  rw [h2] at hh
  have h3 := List.mem_of_mem_take hh
  have h4 := (sortDesc_perm (fun x : Hot => x.replies) (hotRaw threads)).mem_iff.1 h3
  have h5 := analyze_loop_hot threads [] []
  have h6 : hotRaw threads =
      (threads.filter (fun t => decide (threadCoins t ≠ []))).map
        (fun t => mkHot t (threadCoins t)) := by
    simpa [hotRaw] using h5
  rw [h6] at h4
  rcases List.mem_map.1 h4 with ⟨t, _, rfl⟩
  exact extract_coins_isCoinKey _ s hs

/-! ### Claim theorems -/

/-- Claim C1: for every sequence of thread records, the aggregate count
stored for a symbol equals the number of threads whose combined
subject+body text mentions that symbol (per-thread dedup: a thread whose
text mentions the same symbol several times, via any mix of alias and
direct matches, contributes exactly 1), and the stored count always equals
the length of that symbol's thread-id list. -/
theorem count_eq_mentioning_threads (threads : List Thread) (sym : String) :
    countOf (analyze threads).1 sym =
      (threads.filter (fun t => decide (sym ∈ threadCoins t))).length
    ∧ ∀ st, (analyze threads).1.lookup sym = some st →
        st.count = st.threadIds.length := by
  have hc := analyze_loop_count sym threads [] []
  have ht := analyze_loop_tids sym threads [] []
  have heq : (analyze threads).1 = (threads.foldl analyzeStep ([], [])).1 := rfl
  have hcount : countOf (analyze threads).1 sym =
      (threads.filter (fun t => decide (sym ∈ threadCoins t))).length := by
    rw [heq, hc]
    simp [countOf]
  have htids : tidsOf (analyze threads).1 sym =
      (threads.filter (fun t => decide (sym ∈ threadCoins t))).map (fun t => t.no) := by
    rw [heq, ht]
    simp [tidsOf]
  refine ⟨hcount, ?_⟩
  intro st hst
  have h1 : st.count = countOf (analyze threads).1 sym := by
    unfold countOf
    rw [hst]
    rfl
  have h2 : st.threadIds = tidsOf (analyze threads).1 sym := by
    unfold tidsOf
    rw [hst]
    rfl
  rw [h1, h2, hcount, htids, List.length_map]

/-- Witness for C1 at a concrete input: the first thread mentions BTC
twice (direct symbol and the alias "bitcoin") yet contributes one; two
threads mention BTC, the stored count is 2 and equals the length of the
stored thread-id list. -/
theorem count_eq_mentioning_threads_app :
    countOf (analyze [⟨1, some "BTC bitcoin moon", none, 5⟩,
        ⟨2, none, some "sell BTC", 3⟩]).1 "BTC" = 2
    ∧ ∃ st, (analyze [⟨1, some "BTC bitcoin moon", none, 5⟩,
        ⟨2, none, some "sell BTC", 3⟩]).1.lookup "BTC" = some st
        ∧ st.count = st.threadIds.length := by
  have h := count_eq_mentioning_threads
    [⟨1, some "BTC bitcoin moon", none, 5⟩, ⟨2, none, some "sell BTC", 3⟩] "BTC"
  exact ⟨h.1.trans (by decide), ⟨2, [1, 2]⟩, by decide,
    h.2 ⟨2, [1, 2]⟩ (by decide)⟩

/-- Claim C2: alias matching is a case-insensitive whole-word match: the
regex search for an alias over the lowercased cleaned text succeeds
exactly when the alias occurs as a maximal word-character run (so an alias
occurring only inside a longer word, like "ether" inside "ethernet", is
never matched), and a whole-word occurrence adds the alias's canonical
symbol to the extraction result. -/
theorem alias_whole_word (text al sym : String)
    (hmem : (al, sym) ∈ ALIASES) :
    (reSearch al.data ((stripTags text.data).map Char.toLower) = true ↔
      al.data ∈ words ((stripTags text.data).map Char.toLower))
    ∧ (al.data ∈ words ((stripTags text.data).map Char.toLower) →
        sym ∈ extract_coins text) := by
  obtain ⟨hne, hw⟩ := aliases_wordish (al, sym) hmem
  refine ⟨reSearch_iff hne hw _, ?_⟩
  intro hin
  have htext : text ≠ "" := by
    intro h0
    rw [h0] at hin
    have hnil : ((stripTags ("" : String).data).map Char.toLower) = [] := rfl
    rw [hnil] at hin
    exact absurd hin (List.not_mem_nil _)
  rw [extract_coins_mem text sym htext]
  exact Or.inl ⟨(al, sym), hmem, rfl, (reSearch_iff hne hw _).2 hin⟩

/-- Witness for C2: "ether" inside "ethernet cable" is not matched
(regex search is false), while "ether" as a whole word puts ETH into the
extraction result. -/
theorem alias_whole_word_app :
    reSearch "ether".data ((stripTags "ethernet cable".data).map Char.toLower) = false
    ∧ "ETH" ∈ extract_coins "buy ether now" := by
  have h1 := alias_whole_word "ethernet cable" "ether" "ETH" (by decide)
  have h2 := alias_whole_word "buy ether now" "ether" "ETH" (by decide)
  constructor
  · have h3 : ¬("ether".data ∈
        words ((stripTags "ethernet cable".data).map Char.toLower)) := by decide
    cases hres : reSearch "ether".data
        ((stripTags "ethernet cable".data).map Char.toLower) with
    | false => rfl
    | true => exact absurd (h1.1.1 hres) h3
  · exact h2.2 (by decide)

/-- Claim C3: extraction returns the empty set immediately on empty input;
otherwise, after replacing every angle-bracket tag with a space, its
result is exactly the union of the alias-pass symbols and the whole-word
2-8-letter uppercase tokens of the original-case cleaned text that are
coin keys, with no duplicates. -/
theorem extract_union_of_passes (text : String) :
    (text = "" → extract_coins text = [])
    ∧ (text ≠ "" →
        (extract_coins text).toFinset =
          specAliasSymbols text ∪ specDirectSymbols text
        ∧ (extract_coins text).Nodup) := by
  constructor
  · intro h
    rw [h]
    rfl
  · intro h
    refine ⟨?_, extract_coins_nodup text⟩
    ext s
    rw [List.mem_toFinset, extract_coins_mem text s h, Finset.mem_union]
    unfold specAliasSymbols specDirectSymbols
    rw [List.mem_toFinset, List.mem_toFinset]
    constructor
    · rintro (⟨p, hp, hps, hr⟩ | ⟨w, hw, hwk, hws⟩)
      · left
        obtain ⟨hne, hword⟩ := aliases_wordish p hp
        refine List.mem_map.2 ⟨p, List.mem_filter.2 ⟨hp, ?_⟩, hps⟩
        simp only [decide_eq_true_eq]
        exact (reSearch_iff hne hword _).1 hr
      · right
        have hw2 := List.mem_filter.1 hw
        refine List.mem_map.2 ⟨w, List.mem_filter.2 ⟨hw2.1, ?_⟩, hws.symm⟩
        simp only [Bool.and_eq_true]
        exact ⟨by simpa [Bool.and_eq_true] using hw2.2, hwk⟩
    · rintro (hal | hdir)
      · rcases List.mem_map.1 hal with ⟨p, hpf, hps⟩
        rcases List.mem_filter.1 hpf with ⟨hp, hpred⟩
        obtain ⟨hne, hword⟩ := aliases_wordish p hp
        refine Or.inl ⟨p, hp, hps, ?_⟩
        rw [reSearch_iff hne hword]
        simpa using hpred
      · rcases List.mem_map.1 hdir with ⟨w, hwf, hws⟩
        rcases List.mem_filter.1 hwf with ⟨hw, hpred⟩
        simp only [Bool.and_eq_true] at hpred
        refine Or.inr ⟨w, List.mem_filter.2 ⟨hw, ?_⟩, hpred.2, hws.symm⟩
        simp only [Bool.and_eq_true]
        exact hpred.1

/-- Witness for C3: on the empty string extraction returns [], and on
"BTC moon" the result set is the union of the two passes. -/
theorem extract_union_of_passes_app :
    extract_coins "" = []
    ∧ (extract_coins "BTC moon").toFinset =
        specAliasSymbols "BTC moon" ∪ specDirectSymbols "BTC moon" := by
  have h1 := extract_union_of_passes ""
  have h2 := extract_union_of_passes "BTC moon"
  exact ⟨h1.1 rfl, (h2.2 (by decide)).1⟩

/-- Claim C4: the hot-thread list returned by `analyze` has length at most
10, equals the stable descending sort (by reply count) of the working
list truncated to 10; the working list consists exactly of the threads
with non-empty extraction in encounter order; the sort is a permutation
of the working list, is sorted by reply count non-increasing, and is
stable: filtering the sorted list by any fixed reply count yields the
same sequence as filtering the unsorted working list, so ties keep their
encounter order. -/
theorem hot_list_sorted_bounded (threads : List Thread) :
    (analyze threads).2.length ≤ 10
    ∧ (analyze threads).2 =
        (sortDesc (fun h : Hot => h.replies) (hotRaw threads)).take 10
    ∧ hotRaw threads =
        (threads.filter (fun t => decide (threadCoins t ≠ []))).map
          (fun t => mkHot t (threadCoins t))
    ∧ List.Perm (sortDesc (fun h : Hot => h.replies) (hotRaw threads))
        (hotRaw threads)
    ∧ (sortDesc (fun h : Hot => h.replies) (hotRaw threads)).Pairwise
        (fun a b => b.replies ≤ a.replies)
    ∧ ∀ k : Int,
        (sortDesc (fun h : Hot => h.replies) (hotRaw threads)).filter
            (fun h => h.replies == k) =
          (hotRaw threads).filter (fun h => h.replies == k) := by
  refine ⟨?_, rfl, ?_, sortDesc_perm _ _, sortDesc_pairwise _ _,
    fun k => sortDesc_filter _ k _⟩
  · have h2 : (analyze threads).2 =
        (sortDesc (fun h : Hot => h.replies) (hotRaw threads)).take 10 := rfl
    rw [h2]
    exact List.length_take_le 10 _
  · simpa [hotRaw] using analyze_loop_hot threads [] []

/-- Claim C5 is REFUTED by the code: at a concrete transport error the run
does report the cause, writes no document and performs its single fetch
attempt, but it terminates CLEANLY — the `RequestException` handler in
`main` prints the message and returns without re-raising, so the process
exits with status 0, contradicting the claimed non-zero/exception-style
termination. -/
theorem transport_error_clean_exit_cex :
    (mainRun (FetchOutcome.transportError "connection timed out")).raised = false
    ∧ (mainRun (FetchOutcome.transportError "connection timed out")).reportedError
        = some "connection timed out"
    ∧ (mainRun (FetchOutcome.transportError "connection timed out")).wroteFile
        = none := ⟨rfl, rfl, rfl⟩

/-- Claim C5 (amended): on any transport error during the catalog fetch,
the run aborts the pipeline with the underlying cause reported to the
user, performs no retry (a single fetch attempt), writes no document —
but it terminates cleanly (exit status 0), because the exception is
caught and not re-raised. -/
theorem transport_error_behaviour (msg : String) :
    mainRun (FetchOutcome.transportError msg) =
      ⟨1, some msg, false, none, false⟩ := rfl

/-- Claim C6: whenever aggregation yields an empty symbol-to-count
mapping, the run writes no output file, reports the no-coins condition,
and ends cleanly without error. -/
theorem no_coins_skips_document (threads : List Thread)
    (h : (analyze threads).1 = []) :
    (mainRun (FetchOutcome.success threads)).wroteFile = none
    ∧ (mainRun (FetchOutcome.success threads)).reportedNoCoins = true
    ∧ (mainRun (FetchOutcome.success threads)).raised = false
    ∧ (mainRun (FetchOutcome.success threads)).reportedError = none := by
  simp only [mainRun]
  rw [if_pos h]
  exact ⟨rfl, rfl, rfl, rfl⟩

/-- Witness for C6 at the empty catalog. -/
theorem no_coins_skips_document_app :
    (mainRun (FetchOutcome.success [])).wroteFile = none
    ∧ (mainRun (FetchOutcome.success [])).reportedNoCoins = true := by
  have h := no_coins_skips_document [] rfl
  exact ⟨h.1, h.2.1⟩

set_option maxRecDepth 4000 in
/-- Claim C7: for every thread whose extraction result is non-empty, the
HotThread display text is the subject when present and non-empty, and
otherwise the first 80 characters of the body (the empty string when the
body is also absent). -/
theorem hot_display_text (t : Thread) (hne : threadCoins t ≠ []) :
    (mkHot t (threadCoins t)).sub =
      (match t.sub with
       | some s => if s = "" then (t.com.getD "").take 80 else s
       | none => (t.com.getD "").take 80)
    ∧ (t.com = none → t.sub = none → (mkHot t (threadCoins t)).sub = "") := by
  constructor
  · cases hsub : t.sub with
    | none => simp [mkHot, pyOr, hsub]
    | some s =>
      by_cases hs : s = "" <;> simp [mkHot, pyOr, hsub, hs]
  · intro hcom hsub
    simp only [mkHot, pyOr, hsub, hcom, Option.getD_none]
    decide

/-- Witness for C7: a thread with subject "BTC moon" (non-empty
extraction) displays its subject. -/
theorem hot_display_text_app :
    (mkHot ⟨1, some "BTC moon", some "body text", 5⟩
      (threadCoins ⟨1, some "BTC moon", some "body text", 5⟩)).sub = "BTC moon" := by
  have h := hot_display_text ⟨1, some "BTC moon", some "body text", 5⟩ (by decide)
  exact h.1.trans (by decide)

/-- Claim C8: in exact rational arithmetic, each symbol's percentage is
count/total*100 (0 when the total is 0), the percentages over all symbols
sum to 100 when the total is positive, and each bar width is
count/max-count*100 where max-count is the largest stored count. -/
theorem renderer_percentages_and_bars (cc : List (String × CoinStat)) :
    (0 < totalMentions cc →
      ((sortedCoins cc).map (fun e => pctOf (totalMentions cc) e.2.count)).sum = 100)
    ∧ (totalMentions cc = 0 →
        ∀ e ∈ sortedCoins cc, pctOf (totalMentions cc) e.2.count = 0)
    ∧ (∀ e ∈ sortedCoins cc,
        pctOf (totalMentions cc) e.2.count =
          if totalMentions cc = 0 then 0
          else (e.2.count : ℚ) / (totalMentions cc : ℚ) * 100)
    ∧ (cc ≠ [] →
        (∀ e ∈ cc, e.2.count ≤ maxCount cc) ∧ ∃ e ∈ cc, maxCount cc = e.2.count)
    ∧ (∀ e ∈ sortedCoins cc,
        barWOf (maxCount cc) e.2.count =
          (e.2.count : ℚ) / (maxCount cc : ℚ) * 100) := by
  refine ⟨?_, ?_, fun e _ => rfl, maxCount_is_max cc, fun e _ => rfl⟩
  · intro hT
    exact sortedCoins_sum_pct cc (by omega)
  · intro hT e _
    simp [pctOf, hT]

/-- Witness for C8 on the mapping BTC: 3, ETH: 1 (total 4): the
percentages sum to 100 and every count is at most the maximum. -/
theorem renderer_percentages_and_bars_app :
    ((sortedCoins [("BTC", ⟨3, []⟩), ("ETH", ⟨1, []⟩)]).map
      (fun e =>
        pctOf (totalMentions [("BTC", ⟨3, []⟩), ("ETH", ⟨1, []⟩)]) e.2.count)).sum
        = 100
    ∧ ∀ e ∈ [("BTC", (⟨3, []⟩ : CoinStat)), ("ETH", ⟨1, []⟩)],
        e.2.count ≤ maxCount [("BTC", ⟨3, []⟩), ("ETH", ⟨1, []⟩)] := by
  have h := renderer_percentages_and_bars [("BTC", ⟨3, []⟩), ("ETH", ⟨1, []⟩)]
  exact ⟨h.1 (by decide), (h.2.2.2.1 (by decide)).1⟩

/-- Claim C9: every symbol in the aggregate mapping or in any HotThread's
matched-symbol list is a key of the coin table; extraction only ever
returns coin-table keys, and every alias value is itself a coin key. -/
theorem symbols_are_coin_keys (text : String) (threads : List Thread) :
    (∀ s ∈ extract_coins text, isCoinKey s = true)
    ∧ (∀ q ∈ (analyze threads).1, isCoinKey q.1 = true)
    ∧ (∀ h ∈ (analyze threads).2, ∀ s ∈ h.coins, isCoinKey s = true)
    ∧ (∀ p ∈ ALIASES, isCoinKey p.2 = true) := by
  refine ⟨extract_coins_isCoinKey text, ?_, hot_coins_coin threads,
    aliases_values_coin⟩
  intro q hq
  have heq : (analyze threads).1 = (threads.foldl analyzeStep ([], [])).1 := rfl
  rw [heq] at hq
  exact analyze_keys_coin threads [] [] (by intro r hr; exact absurd hr (List.not_mem_nil r)) q hq

/-- Witness for C9: BTC extracted from an alias mention is a coin key, and
the alias value of "ether" is a coin key. -/
theorem symbols_are_coin_keys_app :
    isCoinKey "BTC" = true ∧ isCoinKey "ETH" = true := by
  have h := symbols_are_coin_keys "btc bitcoin" [⟨1, some "ether", none, 0⟩]
  exact ⟨h.1 "BTC" (by decide), h.2.2.2 ("ether", "ETH") (by decide)⟩

/-- Claim C10 is REFUTED as stated: on the concrete aggregate mapping
{"BTC": {count: 0, threads: []}} the leaderboard loop runs with
`max_count = 0`, so `count / max_count` divides by zero (0 occurs among
the evaluated divisors) — HTML generation is NOT total over every input.
(The pipeline never produces such a mapping: `analyze` stores only
positive counts.) -/
theorem division_guard_cex :
    (0 : Nat) ∈ evaluatedDivisors [("BTC", ⟨0, []⟩)]
    ∧ maxCount [("BTC", ⟨0, []⟩)] = 0 := by decide

/-- Claim C10 (amended): for every input whose stored counts are all
positive — as the aggregator guarantees — including the empty aggregate
mapping and an empty top-10 subset, no division by zero occurs: the
percentage division is guarded by the total-mentions check, and the
leaderboard and heat-map divisors fall back to 1 when the sorted coin
list is empty. -/
theorem division_guard_positive_counts (cc : List (String × CoinStat))
    (hp : ∀ e ∈ cc, 0 < e.2.count) :
    (0 : Nat) ∉ evaluatedDivisors cc
    ∧ (cc = [] → maxCount cc = 1 ∧ hmMax cc = 1) := by
  refine ⟨no_zero_divisor_of_pos cc hp, ?_⟩
  rintro rfl
  exact ⟨rfl, rfl⟩

/-- Witness for the amended C10 on a positive-count mapping and on the
empty mapping. -/
theorem division_guard_positive_counts_app :
    (0 : Nat) ∉ evaluatedDivisors [("BTC", ⟨2, [1]⟩), ("ETH", ⟨1, [2]⟩)]
    ∧ (0 : Nat) ∉ evaluatedDivisors ([] : List (String × CoinStat)) :=
  ⟨(division_guard_positive_counts [("BTC", ⟨2, [1]⟩), ("ETH", ⟨1, [2]⟩)]
      (by decide)).1,
    (division_guard_positive_counts [] (by decide)).1⟩

end BizTracker
